import Mathlib

/-!
# Verification of the VC_Bills legislative-tracker core (`src/app.py`)

A shallow embedding of the record normalization, faceted filtering and
derived-view construction logic of `app.py`, together with theorems
settling the specification's claims about it.

Conventions of the embedding:
* A pandas cell that may be `NaN` is an `Option`; `none` models `NaN`.
* Calendar dates are day numbers (`Nat`); only order and `+ 1 day` matter.
* A `DataFrame` of records is a `List Record` in row order; boolean-mask
  filtering is modelled by explicit mask lists combined positionally,
  mirroring the pandas expression in `main`.
-/

set_option autoImplicit false

namespace VCBills

/-- A normalized record, one row of the exploded DataFrame produced by
`load_data`: single (possibly absent) author, optional date, optional
policy area and enactment method, title text and optional hyperlink. -/
structure Record where
  author : Option String
  date : Option Nat
  policyArea : Option String
  enactmentMethod : Option String
  title : String
  link : Option String
  deriving DecidableEq, Repr

/-- A facet selection as assembled in `main`: multiselect lists for the
three value facets and an inclusive date interval from the slider. -/
structure Selection where
  authors : List String
  policies : List String
  methods : List String
  startDate : Nat
  endDate : Nat
  deriving DecidableEq, Repr

/-! ## Filter Engine (`main`, the boolean mask at app.py:457-463) -/

/-- `Series.isin` for one optional cell: a `NaN` cell is never a member. -/
def isinOpt (v : Option String) (sel : List String) : Bool :=
  match v with
  | none => false
  | some s => sel.contains s

/-- The mask `data[col].isin(sel)` as a list of booleans in row order. -/
def seriesIsin (get : Record → Option String) (sel : List String)
    (rs : List Record) : List Bool :=
  rs.map fun r => isinOpt (get r) sel

/-- The mask `data["Date"] >= start`: `NaT` compares false. -/
def seriesDateGe (startDate : Nat) (rs : List Record) : List Bool :=
  rs.map fun r =>
    match r.date with
    | none => false
    | some d => decide (startDate ≤ d)

/-- The mask `data["Date"] <= end`: `NaT` compares false. -/
def seriesDateLe (endDate : Nat) (rs : List Record) : List Bool :=
  rs.map fun r =>
    match r.date with
    | none => false
    | some d => decide (d ≤ endDate)

/-- `mask | scalar` : or-ing a boolean Series with a Python scalar. -/
def orScalar (m : List Bool) (b : Bool) : List Bool :=
  m.map (· || b)

/-- `mask & mask` : positional conjunction of two boolean Series. -/
def andMask (m₁ m₂ : List Bool) : List Bool :=
  List.zipWith (· && ·) m₁ m₂

/-- `data[mask]` : keep the rows whose mask entry is `True`. -/
def booleanSelect (rs : List Record) (m : List Bool) : List Record :=
  (List.zip rs m).filterMap fun p => if p.2 then some p.1 else none

/-- The full filter mask of app.py:457-463 (identically app.py:561-567):
`(isin(author)|empty) & (isin(policy)|empty) & (isin(method)|empty)
 & (Date >= start) & (Date <= end)`. -/
def filterMask (rs : List Record) (sel : Selection) : List Bool :=
  andMask
    (andMask
      (andMask
        (andMask
          (orScalar (seriesIsin (fun r => r.author) sel.authors rs)
            (decide (sel.authors.length = 0)))
          (orScalar (seriesIsin (fun r => r.policyArea) sel.policies rs)
            (decide (sel.policies.length = 0))))
        (orScalar (seriesIsin (fun r => r.enactmentMethod) sel.methods rs)
          (decide (sel.methods.length = 0))))
      (seriesDateGe sel.startDate rs))
    (seriesDateLe sel.endDate rs)

/-- `filtered_data = data[...mask...]` : the Filter Engine. -/
def filterEngine (rs : List Record) (sel : Selection) : List Record :=
  booleanSelect rs (filterMask rs sel)

/-- Spec §4.3 facet conjunct: author ∈ sel.author ∨ sel.author empty. -/
def authorClause (sel : Selection) (r : Record) : Bool :=
  isinOpt r.author sel.authors || sel.authors.isEmpty

/-- Spec §4.3 facet conjunct: policy_area ∈ sel.policy_area ∨ empty. -/
def policyClause (sel : Selection) (r : Record) : Bool :=
  isinOpt r.policyArea sel.policies || sel.policies.isEmpty

/-- Spec §4.3 facet conjunct: enactment_method ∈ sel.enactment_method ∨
empty. -/
def methodClause (sel : Selection) (r : Record) : Bool :=
  isinOpt r.enactmentMethod sel.methods || sel.methods.isEmpty

/-- Spec §4.3 date conjunct: sel.start ≤ date ≤ sel.end, both endpoints
inclusive. -/
def dateClause (sel : Selection) (r : Record) : Bool :=
  match r.date with
  | none => false
  | some d => decide (sel.startDate ≤ d) && decide (d ≤ sel.endDate)

/-- The spec's per-record predicate, written from §4.3 of the spec:
conjunction across the four facets, wildcard on an empty selection,
inclusive date endpoints. -/
def specKeep (sel : Selection) (r : Record) : Bool :=
  authorClause sel r && policyClause sel r && methodClause sel r &&
    dateClause sel r

/-! ## Normalizer (`load_data`, app.py:63-65)

`df.assign(Author=df["Authors"].str.split(",")).explode("Author")`
followed by `df["Author"].str.strip()`, modelled as three pipeline steps
over row lists. -/

/-- A raw spreadsheet row after column selection/renaming: the author
field is still the unexploded comma-separated string. -/
structure RawRow where
  authors : Option String
  date : Option Nat
  policyArea : Option String
  enactmentMethod : Option String
  title : String
  link : Option String
  deriving DecidableEq, Repr

/-- Python's `str.split(",")` on the character list: non-collapsing split
at every comma, so `""` yields `[""]` and `"a,,b"` yields three pieces. -/
def splitComma : List Char → List (List Char)
  | [] => [[]]
  | c :: rest =>
    if c = ',' then [] :: splitComma rest
    else
      match splitComma rest with
      | [] => [[c]]
      | t :: ts => (c :: t) :: ts

/-- `str.split(",")` on strings. -/
def pySplit (s : String) : List String :=
  (splitComma s.data).map List.asString

/-- A row of the intermediate frame produced by
`df.assign(Author=df["Authors"].str.split(","))`: the original row plus
the list-valued `Author` column (`NaN` stays `NaN`). -/
structure SplitRow where
  base : RawRow
  authorList : Option (List String)
  deriving DecidableEq, Repr

/-- `df.assign(Author=df["Authors"].str.split(","))`. -/
def assignSplit (rows : List RawRow) : List SplitRow :=
  rows.map fun r => ⟨r, r.authors.map pySplit⟩

/-- Build the normalized record for one author token, carrying every
other field of the source row unchanged. -/
def recordOf (r : RawRow) (a : Option String) : Record :=
  ⟨a, r.date, r.policyArea, r.enactmentMethod, r.title, r.link⟩

/-- `df.explode("Author")`: one output row per list element, in list
order; a `NaN` or empty list yields a single row with `NaN` author. -/
def explodeAuthors (rows : List SplitRow) : List Record :=
  rows.flatMap fun sr =>
    match sr.authorList with
    | none => [recordOf sr.base none]
    | some [] => [recordOf sr.base none]
    | some l => l.map fun a => recordOf sr.base (some a)

/-- Python's `str.strip()`: drop leading and trailing whitespace. -/
def pyStrip (s : String) : String :=
  (((s.data.dropWhile Char.isWhitespace).reverse.dropWhile
      Char.isWhitespace).reverse).asString

/-- `df["Author"] = df["Author"].str.strip()`. -/
def stripAuthors (rows : List Record) : List Record :=
  rows.map fun r => { r with author := r.author.map (fun a => pyStrip a) }

/-- The author-normalization tail of `load_data` (app.py:63-65). -/
def load_data (rows : List RawRow) : List Record :=
  stripAuthors (explodeAuthors (assignSplit rows))

/-- `get_filtered_data`: the working set, rows with a valid date only. -/
def get_filtered_data (rows : List RawRow) : List Record :=
  (load_data rows).filter fun r => r.date.isSome

/-! ## Relationship Graph Builder (`create_network_graph`, app.py:170-223)

The builder iterates the rows once, guarding node insertion with the
`added_nodes` set and then adding the (author → bill) and
(bill → policy) edges when the corresponding field is truthy. -/

/-- Display category of a node (its colour in the source). -/
inductive NodeCat
  | bill
  | author
  | policy
  deriving DecidableEq, Repr

/-- The pyvis network: node entries (id, category) and ordered edges, both
in insertion order. -/
structure Network where
  nodes : List (String × NodeCat)
  edges : List (String × String)
  deriving DecidableEq, Repr

/-- pyvis `Network.add_node`: appends a node entry. `create_network_graph`
only calls it for ids not yet in `added_nodes`, so no duplicate id ever
reaches it. -/
def addNode (net : Network) (lbl : String) (cat : NodeCat) : Network :=
  { net with nodes := net.nodes ++ [(lbl, cat)] }

/-- Modelled from the spec: pyvis `Network.add_edge` is an external
collaborator whose source is not part of this repository; per spec §4.5
the edge store is keyed by the ordered (source, target) pair, so
re-inserting an existing pair is a no-op and a new pair is appended. -/
def addEdge (net : Network) (src tgt : String) : Network :=
  if net.edges.contains (src, tgt) then net
  else { net with edges := net.edges ++ [(src, tgt)] }

/-- Guard outcome of `if author:` / `if policy_area:` for a cell holding
a present string: only the empty string is falsy. CAVEAT: Python's
`bool(nan)` is True, so on an absent (NaN) cell the real code takes the
branch and hands the non-string NaN to pyvis's str/int-typed node API —
a path this string-labelled total model cannot represent and instead
skips (returns false). The model is therefore faithful only for inputs
whose author and policy-area cells are all present; the node-count
theorem below restricts itself to that domain by hypothesis. -/
def truthy : Option String → Bool
  | none => false
  | some s => decide (s ≠ "")

/-- The loop state of `create_network_graph`: the network under
construction plus the `added_nodes` bookkeeping set (kept as a list in
insertion order; membership is what the source uses it for). -/
structure GraphState where
  net : Network
  added : List String
  deriving DecidableEq, Repr

/-- `if lbl not in added_nodes: net.add_node(...); added_nodes.add(lbl)`. -/
def addNodeIfNew (st : GraphState) (lbl : String) (cat : NodeCat) :
    GraphState :=
  if st.added.contains lbl then st
  else ⟨addNode st.net lbl cat, st.added ++ [lbl]⟩

/-- `if v and v not in added_nodes: net.add_node(...)` for the author and
policy fields. -/
def addNodeIfTruthy (st : GraphState) (v : Option String) (cat : NodeCat) :
    GraphState :=
  match v with
  | none => st
  | some s => if s = "" then st else addNodeIfNew st s cat

/-- Edge insertion leaves `added_nodes` untouched. -/
def addEdgeState (st : GraphState) (src tgt : String) : GraphState :=
  ⟨addEdge st.net src tgt, st.added⟩

/-- `if author: net.add_edge(author, bill_title)`. -/
def authorEdge (st : GraphState) (r : Record) : GraphState :=
  match r.author with
  | none => st
  | some a => if a = "" then st else addEdgeState st a r.title

/-- `if policy_area: net.add_edge(bill_title, policy_area)`. -/
def policyEdge (st : GraphState) (r : Record) : GraphState :=
  match r.policyArea with
  | none => st
  | some p => if p = "" then st else addEdgeState st r.title p

/-- One iteration of the `for idx, row in data.iterrows()` loop: bill
node, author node, policy node, author edge, policy edge, in source
order. -/
def graphStep (st : GraphState) (r : Record) : GraphState :=
  policyEdge
    (authorEdge
      (addNodeIfTruthy
        (addNodeIfTruthy (addNodeIfNew st r.title NodeCat.bill)
          r.author NodeCat.author)
        r.policyArea NodeCat.policy)
      r)
    r

/-- `create_network_graph`: fold the loop over the rows from an empty
network and empty `added_nodes`. -/
def create_network_graph (rs : List Record) : Network :=
  (rs.foldl graphStep ⟨⟨[], []⟩, []⟩).net

/-- The node labels a single record can contribute: its title, its author
when truthy, its policy area when truthy. -/
def labelsOf (r : Record) : List String :=
  r.title ::
    ((match r.author with
      | none => []
      | some a => if a = "" then [] else [a]) ++
     (match r.policyArea with
      | none => []
      | some p => if p = "" then [] else [p]))

/-- The distinct titles of a record sequence. -/
def distinctTitles (rs : List Record) : List String :=
  (rs.map fun r => r.title).dedup

/-- The distinct present (truthy) authors of a record sequence. -/
def distinctAuthors (rs : List Record) : List String :=
  (rs.filterMap fun r => if truthy r.author then r.author else none).dedup

/-- The distinct present (truthy) policy areas of a record sequence. -/
def distinctPolicies (rs : List Record) : List String :=
  (rs.filterMap fun r =>
    if truthy r.policyArea then r.policyArea else none).dedup

/-! ## Flow Diagram Builder (`create_sankey_diagram`, app.py:277-349)

Three sorted deduplicated label layers, positional index dictionaries,
and two passes of weight-1 link contributions. -/

/-- Lexicographic comparison of character lists by code point, the order
Python's `sorted` uses on strings. -/
def lexLe : List Char → List Char → Bool
  | [], _ => true
  | _ :: _, [] => false
  | c :: cs, d :: ds =>
    if c.toNat < d.toNat then true
    else if d.toNat < c.toNat then false
    else lexLe cs ds

/-- Lexicographic `≤` on strings. -/
def strLe (a b : String) : Bool := lexLe a.data b.data

/-- `sorted(series.dropna().unique())`: the distinct values in ascending
lexicographic order. -/
def sortedUnique (l : List String) : List String :=
  List.insertionSort (fun a b => strLe a b = true) l.dedup

/-- Layer 1: `sorted(df["Author"].dropna().unique())`. -/
def sankeyAuthors (rs : List Record) : List String :=
  sortedUnique (rs.filterMap fun r => r.author)

/-- Layer 2: `sorted(df["Policy Area"].dropna().unique())`. -/
def sankeyPolicies (rs : List Record) : List String :=
  sortedUnique (rs.filterMap fun r => r.policyArea)

/-- Layer 3: `sorted(df["Enactment Method"].dropna().unique())`. -/
def sankeyMethods (rs : List Record) : List String :=
  sortedUnique (rs.filterMap fun r => r.enactmentMethod)

/-- `labels = list(authors) + list(policies) + list(methods)`. -/
def sankeyLabels (rs : List Record) : List String :=
  sankeyAuthors rs ++ (sankeyPolicies rs ++ sankeyMethods rs)

/-- `author_indices = {a: i for i, a in enumerate(authors)}`. -/
def authorIdx (rs : List Record) (a : String) : Nat :=
  (sankeyAuthors rs).indexOf a

/-- `policy_indices = {p: i + len(authors) for i, p in enumerate(...)}`. -/
def policyIdx (rs : List Record) (p : String) : Nat :=
  (sankeyAuthors rs).length + (sankeyPolicies rs).indexOf p

/-- `method_indices = {m: i + len(authors) + len(policies) ...}`. -/
def methodIdx (rs : List Record) (m : String) : Nat :=
  (sankeyAuthors rs).length + (sankeyPolicies rs).length +
    (sankeyMethods rs).indexOf m

/-- First edge pass (app.py:300-306): one (author, policy, 1) link per
record with both fields present. -/
def sankeyPass1 (rs : List Record) : List (Nat × Nat × Nat) :=
  rs.filterMap fun r =>
    match r.author, r.policyArea with
    | some a, some p => some (authorIdx rs a, policyIdx rs p, 1)
    | _, _ => none

/-- Second edge pass (app.py:308-314): one (policy, method, 1) link per
record with both fields present. -/
def sankeyPass2 (rs : List Record) : List (Nat × Nat × Nat) :=
  rs.filterMap fun r =>
    match r.policyArea, r.enactmentMethod with
    | some p, some m => some (policyIdx rs p, methodIdx rs m, 1)
    | _, _ => none

/-- The link arrays of the Sankey figure, sources/targets/values zipped
into (source, target, value) triples: pass 1 followed by pass 2. -/
def sankeyLinks (rs : List Record) : List (Nat × Nat × Nat) :=
  sankeyPass1 rs ++ sankeyPass2 rs

/-- Total weight the diagram carries between a (source, target) index
pair: the sum of the values of all links on that pair. -/
def linkWeight (links : List (Nat × Nat × Nat)) (s t : Nat) : Nat :=
  ((links.filter fun l => decide (l.1 = s) && decide (l.2.1 = t)).map
    fun l => l.2.2).sum

/-! ## Scatter View Builder (`generate_scatter_plot`, app.py:83-149,
with the axis selection of `main`, app.py:572-575) and Timeline View
Builder (`create_timeline_plot`, app.py:351-371, guarded at
app.py:602-608). -/

/-- The error conditions §7 of the spec names for the view builders. -/
inductive ViewError
  | NoValidDates
  | InvalidFieldSelection
  deriving DecidableEq, Repr

/-- A value of one of the four selectable columns. -/
inductive FieldValue
  | str (v : Option String)
  | date (v : Option Nat)
  deriving DecidableEq, Repr

/-- `axis_options` (app.py:572): the only column names the scatter view
of `main` lets the caller choose. -/
def axis_options : List String :=
  ["Policy Area", "Date", "Author", "Enactment Method"]

/-- Column lookup for the four selectable fields (only ever applied to
members of `axis_options`). -/
def getField (r : Record) (f : String) : FieldValue :=
  if f = "Policy Area" then FieldValue.str r.policyArea
  else if f = "Date" then FieldValue.date r.date
  else if f = "Author" then FieldValue.str r.author
  else FieldValue.str r.enactmentMethod

/-- One scatter point: the chosen x/y/colour values plus the hover
payload (title, link, enactment method, date). -/
structure Point where
  x : FieldValue
  y : FieldValue
  color : FieldValue
  title : String
  link : Option String
  enactmentMethod : Option String
  date : Option Nat
  deriving DecidableEq, Repr

/-- `generate_scatter_plot` on admitted columns: `px.scatter` emits one
point per row — no aggregation, no deduplication. -/
def generate_scatter_plot (rs : List Record) (x y c : String) :
    List Point :=
  rs.map fun r =>
    ⟨getField r x, getField r y, getField r c, r.title, r.link,
      r.enactmentMethod, r.date⟩

/-- The scatter view of `main` (app.py:572-590). The rejection branch is
modelled from the spec: the three `st.selectbox` widgets (external UI
collaborator) cannot return a value outside `axis_options`, which the
spec surfaces as the `InvalidFieldSelection` condition. -/
def scatterView (rs : List Record) (x y c : String) :
    Except ViewError (List Point) :=
  if axis_options.contains x && axis_options.contains y &&
      axis_options.contains c then
    Except.ok (generate_scatter_plot rs x y c)
  else
    Except.error ViewError.InvalidFieldSelection

/-- One timeline interval: Start = date, End = date + 1 day, label =
title, group (colour) = author. -/
structure Interval where
  start : Option Nat
  stop : Option Nat
  label : String
  group : Option String
  deriving DecidableEq, Repr

/-- `create_timeline_plot` (app.py:351-371): Start = Date, End = Date +
1 day, y = Title, color = Author, one bar per row. -/
def create_timeline_plot (rs : List Record) : List Interval :=
  rs.map fun r => ⟨r.date, r.date.map (fun d => d + 1), r.title, r.author⟩

/-- The timeline section of `main` (app.py:602-608): an empty working
set never reaches the builder — the spec's `NoValidDates` condition —
otherwise the intervals are built and shown. -/
def timelineView (rs : List Record) : Except ViewError (List Interval) :=
  if rs.isEmpty then Except.error ViewError.NoValidDates
  else Except.ok (create_timeline_plot rs)

lemma isEmpty_eq_decide (l : List String) :
    l.isEmpty = decide (l = []) := by
  cases l <;> simp

/-- The combined mask is the row-wise map of a single per-record boolean. -/
lemma filterMask_eq_map (rs : List Record) (sel : Selection) :
    filterMask rs sel = rs.map (fun r => specKeep sel r) := by
  induction rs with
  | nil => rfl
  | cons r rs ih =>
    simp only [filterMask, seriesIsin, seriesDateGe, seriesDateLe, orScalar,
      andMask, List.map_cons, List.zipWith_cons_cons] at ih ⊢
    refine congrArg₂ _ ?_ ih
    simp only [specKeep, authorClause, policyClause, methodClause, dateClause]
    cases r.date <;>
      simp [Bool.and_assoc, isEmpty_eq_decide, List.length_eq_zero]

/-- Selecting with a mask that is a row-wise map is a `List.filter`. -/
lemma booleanSelect_map (p : Record → Bool) (rs : List Record) :
    booleanSelect rs (rs.map p) = rs.filter p := by
  induction rs with
  | nil => rfl
  | cons r rs ih =>
    simp only [booleanSelect, List.zip_cons_cons, List.filterMap_cons,
      List.filter_cons] at ih ⊢
    cases h : p r <;> simp [h, ih, booleanSelect]

/-- The Filter Engine is exactly `List.filter` with the spec's predicate. -/
lemma filterEngine_eq_filter (rs : List Record) (sel : Selection) :
    filterEngine rs sel = rs.filter (specKeep sel) := by
  rw [filterEngine, filterMask_eq_map, booleanSelect_map]

/-- C1: the Filter Engine keeps a record if and only if every facet
conjunct holds — author/policy/method membership with empty-selection
wildcard, and the date within the inclusive interval; equivalently, it is
`List.filter` with exactly the spec's predicate. -/
theorem c1_filter_engine_semantics :
    ∀ (rs : List Record) (sel : Selection) (r : Record),
      filterEngine rs sel = rs.filter (specKeep sel) ∧
      (r ∈ filterEngine rs sel ↔
        r ∈ rs ∧
          (authorClause sel r && policyClause sel r && methodClause sel r &&
            dateClause sel r) = true) := by
  intro rs sel r
  refine ⟨filterEngine_eq_filter rs sel, ?_⟩
  rw [filterEngine_eq_filter, List.mem_filter, specKeep]

/-- C10: a record with an absent (NaN) value for a facet is excluded
whenever that facet's selection is non-empty, and is included exactly when
the remaining conjuncts hold whenever that facet's selection is empty. -/
theorem c10_absent_facet_value :
    ∀ (rs : List Record) (sel : Selection) (r : Record),
      (r.author = none →
        (sel.authors ≠ [] → r ∉ filterEngine rs sel) ∧
        (sel.authors = [] → (r ∈ filterEngine rs sel ↔
          r ∈ rs ∧
            (policyClause sel r && methodClause sel r && dateClause sel r)
              = true))) ∧
      (r.policyArea = none →
        (sel.policies ≠ [] → r ∉ filterEngine rs sel) ∧
        (sel.policies = [] → (r ∈ filterEngine rs sel ↔
          r ∈ rs ∧
            (authorClause sel r && methodClause sel r && dateClause sel r)
              = true))) ∧
      (r.enactmentMethod = none →
        (sel.methods ≠ [] → r ∉ filterEngine rs sel) ∧
        (sel.methods = [] → (r ∈ filterEngine rs sel ↔
          r ∈ rs ∧
            (authorClause sel r && policyClause sel r && dateClause sel r)
              = true))) := by
  intro rs sel r
  rw [filterEngine_eq_filter]
  refine ⟨fun ha => ⟨fun hne => ?_, fun he => ?_⟩,
          fun hp => ⟨fun hne => ?_, fun he => ?_⟩,
          fun hm => ⟨fun hne => ?_, fun he => ?_⟩⟩
  · simp [List.mem_filter, specKeep, authorClause, isinOpt, ha,
      List.isEmpty_iff, hne]
  · simp [List.mem_filter, specKeep, authorClause, isinOpt, ha, he,
      Bool.and_assoc]
  · simp [List.mem_filter, specKeep, policyClause, isinOpt, hp,
      List.isEmpty_iff, hne]
  · simp [List.mem_filter, specKeep, policyClause, isinOpt, hp, he,
      Bool.and_assoc]
  · simp [List.mem_filter, specKeep, methodClause, isinOpt, hm,
      List.isEmpty_iff, hne]
  · simp [List.mem_filter, specKeep, methodClause, isinOpt, hm, he,
      Bool.and_assoc]

/-- Closed witness for C10 at concrete inputs: with author selection
`["A"]` a record whose author is absent is dropped; with all selections
empty the same record is kept by the date conjunct alone. -/
theorem c10_absent_facet_value_witness :
    ((⟨none, some 5, some "X", some "M", "T", none⟩ : Record) ∉
        filterEngine [⟨none, some 5, some "X", some "M", "T", none⟩]
          ⟨["A"], [], [], 0, 10⟩) ∧
    ((⟨none, some 5, some "X", some "M", "T", none⟩ : Record) ∈
        filterEngine [⟨none, some 5, some "X", some "M", "T", none⟩]
          ⟨[], [], [], 0, 10⟩) := by
  constructor
  · exact ((c10_absent_facet_value _ _ _).1 rfl).1 (by decide)
  · exact (((c10_absent_facet_value _ _ _).1 rfl).2 rfl).2 (by decide)

lemma splitComma_ne_nil (l : List Char) : splitComma l ≠ [] := by
  induction l with
  | nil => simp [splitComma]
  | cons c rest ih =>
    simp only [splitComma]
    split
    · simp
    · cases hr : splitComma rest <;> simp

lemma splitComma_length (l : List Char) :
    (splitComma l).length = l.count ',' + 1 := by
  induction l with
  | nil => simp [splitComma]
  | cons c rest ih =>
    simp only [splitComma]
    by_cases h : c = ','
    · subst h
      simp [List.count_cons, ih]
    · cases hr : splitComma rest with
      | nil => exact absurd hr (splitComma_ne_nil rest)
      | cons t ts =>
        rw [hr] at ih
        simp [h, ih.symm, List.count_cons, Ne.symm h]

lemma splitComma_no_comma (l : List Char) (h : ∀ c ∈ l, c ≠ ',') :
    splitComma l = [l] := by
  induction l with
  | nil => rfl
  | cons c rest ih =>
    have hc : c ≠ ',' := h c (by simp)
    have hr := ih fun x hx => h x (by simp [hx])
    simp [splitComma, hc, hr]

lemma pySplit_ne_nil (s : String) : pySplit s ≠ [] := by
  simp only [pySplit, ne_eq, List.map_eq_nil_iff]
  exact splitComma_ne_nil s.data

lemma pySplit_length (s : String) :
    (pySplit s).length = s.data.count ',' + 1 := by
  simp [pySplit, splitComma_length]

/-- C4: a raw row whose author field is a string with `k` comma-separated
tokens yields exactly `k` Records, one per token in token order, each
author trimmed, all other fields carried unchanged; zero commas yield one
Record, and rows expand in source order (the Normalizer is an append
homomorphism). -/
theorem c4_normalizer_author_explosion :
    ∀ (rows : List RawRow) (r : RawRow) (s : String),
      r.authors = some s →
      load_data [r] =
        (pySplit s).map (fun t => recordOf r (some (pyStrip t))) ∧
      (load_data [r]).length = (pySplit s).length ∧
      (pySplit s).length = s.data.count ',' + 1 ∧
      (s.data.count ',' = 0 →
        load_data [r] = [recordOf r (some (pyStrip s))]) ∧
      load_data (rows ++ [r]) = load_data rows ++ load_data [r] := by
  intro rows r s hs
  have hexp : load_data [r] =
      (pySplit s).map fun t => recordOf r (some (pyStrip t)) := by
    simp only [load_data, assignSplit, stripAuthors, explodeAuthors,
      List.map_cons, List.map_nil, List.flatMap_cons, List.flatMap_nil, hs,
      Option.map_some]
    cases hps : pySplit s with
    | nil => exact absurd hps (pySplit_ne_nil s)
    | cons t ts => simp [hps, recordOf]
  refine ⟨hexp, by rw [hexp]; simp, pySplit_length s, fun h0 => ?_, ?_⟩
  · have hnc : ∀ c ∈ s.data, c ≠ ',' := by
      intro c hc
      exact List.count_eq_zero.mp h0 ∘ fun he => he ▸ hc
    have : pySplit s = [s] := by
      simp only [pySplit, splitComma_no_comma s.data hnc]
      cases s
      simp [List.asString]
    rw [hexp, this]
    simp
  · simp [load_data, assignSplit, stripAuthors, explodeAuthors]

/-- Closed witness for C4: the row with author field
`"Sen. A, Sen. B"` expands into exactly the two trimmed-author records. -/
theorem c4_normalizer_author_explosion_witness :
    load_data
        [⟨some "Sen. A, Sen. B", some 3, some "X", some "M", "T", none⟩] =
      [⟨some "Sen. A", some 3, some "X", some "M", "T", none⟩,
       ⟨some "Sen. B", some 3, some "X", some "M", "T", none⟩] := by
  have h := (c4_normalizer_author_explosion []
    ⟨some "Sen. A, Sen. B", some 3, some "X", some "M", "T", none⟩
    "Sen. A, Sen. B" rfl).1
  rw [h]
  decide

/-! ### Relationship-graph invariants -/

lemma addEdge_nodes (net : Network) (s t : String) :
    (addEdge net s t).nodes = net.nodes := by
  unfold addEdge
  split <;> rfl

lemma addEdge_edges_nodup (net : Network) (s t : String)
    (h : net.edges.Nodup) : (addEdge net s t).edges.Nodup := by
  unfold addEdge
  split
  · exact h
  · next hc =>
      have hc' : (s, t) ∉ net.edges := by simpa using hc
      rw [List.nodup_append]
      refine ⟨h, List.nodup_singleton _, fun x hx hy => ?_⟩
      simp only [List.mem_singleton] at hy
      exact hc' (hy ▸ hx)

lemma edges_addNodeIfNew (st : GraphState) (x : String) (c : NodeCat) :
    (addNodeIfNew st x c).net.edges = st.net.edges := by
  unfold addNodeIfNew
  split <;> rfl

lemma edges_addNodeIfTruthy (st : GraphState) (v : Option String)
    (c : NodeCat) : (addNodeIfTruthy st v c).net.edges = st.net.edges := by
  unfold addNodeIfTruthy
  cases v with
  | none => rfl
  | some s =>
    by_cases hs : s = "" <;> simp [hs, edges_addNodeIfNew]

lemma edges_nodup_authorEdge (st : GraphState) (r : Record)
    (h : st.net.edges.Nodup) : (authorEdge st r).net.edges.Nodup := by
  unfold authorEdge
  cases r.author with
  | none => exact h
  | some a =>
    by_cases ha : a = ""
    · simpa [ha] using h
    · simpa [ha, addEdgeState] using addEdge_edges_nodup _ _ _ h

lemma edges_nodup_policyEdge (st : GraphState) (r : Record)
    (h : st.net.edges.Nodup) : (policyEdge st r).net.edges.Nodup := by
  unfold policyEdge
  cases r.policyArea with
  | none => exact h
  | some p =>
    by_cases hp : p = ""
    · simpa [hp] using h
    · simpa [hp, addEdgeState] using addEdge_edges_nodup _ _ _ h

lemma edges_nodup_graphStep (st : GraphState) (r : Record)
    (h : st.net.edges.Nodup) : (graphStep st r).net.edges.Nodup := by
  unfold graphStep
  have h3 : (addNodeIfTruthy
      (addNodeIfTruthy (addNodeIfNew st r.title NodeCat.bill)
        r.author NodeCat.author)
      r.policyArea NodeCat.policy).net.edges = st.net.edges := by
    rw [edges_addNodeIfTruthy, edges_addNodeIfTruthy, edges_addNodeIfNew]
  exact edges_nodup_policyEdge _ _ (edges_nodup_authorEdge _ _ (h3 ▸ h))

lemma edges_nodup_fold (rs : List Record) (st : GraphState)
    (h : st.net.edges.Nodup) :
    (rs.foldl graphStep st).net.edges.Nodup := by
  induction rs generalizing st with
  | nil => exact h
  | cons r rs ih => exact ih _ (edges_nodup_graphStep _ _ h)

lemma inv_addNodeIfNew (st : GraphState) (x : String) (c : NodeCat)
    (h : st.added = st.net.nodes.map Prod.fst) :
    (addNodeIfNew st x c).added =
      (addNodeIfNew st x c).net.nodes.map Prod.fst := by
  unfold addNodeIfNew
  split
  · exact h
  · simp [addNode, h]

lemma inv_addNodeIfTruthy (st : GraphState) (v : Option String)
    (c : NodeCat) (h : st.added = st.net.nodes.map Prod.fst) :
    (addNodeIfTruthy st v c).added =
      (addNodeIfTruthy st v c).net.nodes.map Prod.fst := by
  unfold addNodeIfTruthy
  cases v with
  | none => exact h
  | some s =>
    by_cases hs : s = "" <;> simp [hs, h, inv_addNodeIfNew st s c h]

lemma added_authorEdge (st : GraphState) (r : Record) :
    (authorEdge st r).added = st.added := by
  unfold authorEdge
  cases r.author with
  | none => rfl
  | some a => by_cases ha : a = "" <;> simp [ha, addEdgeState]

lemma nodes_authorEdge (st : GraphState) (r : Record) :
    (authorEdge st r).net.nodes = st.net.nodes := by
  unfold authorEdge
  cases r.author with
  | none => rfl
  | some a => by_cases ha : a = "" <;> simp [ha, addEdgeState, addEdge_nodes]

lemma added_policyEdge (st : GraphState) (r : Record) :
    (policyEdge st r).added = st.added := by
  unfold policyEdge
  cases r.policyArea with
  | none => rfl
  | some p => by_cases hp : p = "" <;> simp [hp, addEdgeState]

lemma nodes_policyEdge (st : GraphState) (r : Record) :
    (policyEdge st r).net.nodes = st.net.nodes := by
  unfold policyEdge
  cases r.policyArea with
  | none => rfl
  | some p => by_cases hp : p = "" <;> simp [hp, addEdgeState, addEdge_nodes]

lemma inv_graphStep (st : GraphState) (r : Record)
    (h : st.added = st.net.nodes.map Prod.fst) :
    (graphStep st r).added = (graphStep st r).net.nodes.map Prod.fst := by
  unfold graphStep
  rw [added_policyEdge, nodes_policyEdge, added_authorEdge,
    nodes_authorEdge]
  exact inv_addNodeIfTruthy _ _ _ (inv_addNodeIfTruthy _ _ _
    (inv_addNodeIfNew _ _ _ h))

lemma inv_fold (rs : List Record) (st : GraphState)
    (h : st.added = st.net.nodes.map Prod.fst) :
    (rs.foldl graphStep st).added =
      (rs.foldl graphStep st).net.nodes.map Prod.fst := by
  induction rs generalizing st with
  | nil => exact h
  | cons r rs ih => exact ih _ (inv_graphStep _ _ h)

lemma nodup_added_addNodeIfNew (st : GraphState) (x : String) (c : NodeCat)
    (h : st.added.Nodup) : (addNodeIfNew st x c).added.Nodup := by
  unfold addNodeIfNew
  split
  · exact h
  · next hc =>
      have hc' : x ∉ st.added := by simpa using hc
      rw [List.nodup_append]
      refine ⟨h, List.nodup_singleton _, fun y hy hz => ?_⟩
      simp only [List.mem_singleton] at hz
      exact hc' (hz ▸ hy)

lemma nodup_added_addNodeIfTruthy (st : GraphState) (v : Option String)
    (c : NodeCat) (h : st.added.Nodup) :
    (addNodeIfTruthy st v c).added.Nodup := by
  unfold addNodeIfTruthy
  cases v with
  | none => exact h
  | some s =>
    by_cases hs : s = "" <;> simp [hs, h, nodup_added_addNodeIfNew st s c h]

lemma nodup_added_graphStep (st : GraphState) (r : Record)
    (h : st.added.Nodup) : (graphStep st r).added.Nodup := by
  unfold graphStep
  rw [added_policyEdge, added_authorEdge]
  exact nodup_added_addNodeIfTruthy _ _ _ (nodup_added_addNodeIfTruthy _ _ _
    (nodup_added_addNodeIfNew _ _ _ h))

lemma nodup_added_fold (rs : List Record) (st : GraphState)
    (h : st.added.Nodup) : (rs.foldl graphStep st).added.Nodup := by
  induction rs generalizing st with
  | nil => exact h
  | cons r rs ih => exact ih _ (nodup_added_graphStep _ _ h)

lemma mem_added_addNodeIfNew (st : GraphState) (x : String) (c : NodeCat)
    (l : String) :
    l ∈ (addNodeIfNew st x c).added ↔ l ∈ st.added ∨ l = x := by
  unfold addNodeIfNew
  by_cases hc : x ∈ st.added
  · rw [if_pos (by simpa using hc)]
    constructor
    · exact Or.inl
    · rintro (h | rfl)
      exacts [h, hc]
  · rw [if_neg (by simpa using hc)]
    simp

lemma mem_added_addNodeIfTruthy (st : GraphState) (v : Option String)
    (c : NodeCat) (l : String) :
    l ∈ (addNodeIfTruthy st v c).added ↔
      l ∈ st.added ∨
        l ∈ (match v with
             | none => ([] : List String)
             | some s => if s = "" then [] else [s]) := by
  unfold addNodeIfTruthy
  cases v with
  | none => simp
  | some s =>
    by_cases hs : s = "" <;> simp [hs, mem_added_addNodeIfNew]

lemma mem_added_graphStep (st : GraphState) (r : Record) (l : String) :
    l ∈ (graphStep st r).added ↔ l ∈ st.added ∨ l ∈ labelsOf r := by
  unfold graphStep labelsOf
  rw [added_policyEdge, added_authorEdge, mem_added_addNodeIfTruthy,
    mem_added_addNodeIfTruthy, mem_added_addNodeIfNew]
  simp only [List.mem_cons, List.mem_append]
  tauto

lemma mem_added_fold (rs : List Record) (st : GraphState) (l : String) :
    l ∈ (rs.foldl graphStep st).added ↔
      l ∈ st.added ∨ ∃ r ∈ rs, l ∈ labelsOf r := by
  induction rs generalizing st with
  | nil => simp
  | cons r rs ih =>
    rw [List.foldl_cons, ih, mem_added_graphStep]
    simp only [List.mem_cons]
    constructor
    · rintro ((h | h) | ⟨r', hr', h⟩)
      · exact Or.inl h
      · exact Or.inr ⟨r, Or.inl rfl, h⟩
      · exact Or.inr ⟨r', Or.inr hr', h⟩
    · rintro (h | ⟨r', (rfl | hr'), h⟩)
      · exact Or.inl (Or.inl h)
      · exact Or.inl (Or.inr h)
      · exact Or.inr ⟨r', hr', h⟩

lemma nodes_prefix_addNodeIfNew (st : GraphState) (x : String)
    (c : NodeCat) :
    st.net.nodes <+: (addNodeIfNew st x c).net.nodes := by
  unfold addNodeIfNew
  split
  · exact List.prefix_refl _
  · exact List.prefix_append _ _

lemma nodes_prefix_addNodeIfTruthy (st : GraphState) (v : Option String)
    (c : NodeCat) :
    st.net.nodes <+: (addNodeIfTruthy st v c).net.nodes := by
  unfold addNodeIfTruthy
  cases v with
  | none => exact List.prefix_refl _
  | some s =>
    by_cases hs : s = "" <;> simp [hs, nodes_prefix_addNodeIfNew]

lemma nodes_prefix_graphStep (st : GraphState) (r : Record) :
    st.net.nodes <+: (graphStep st r).net.nodes := by
  unfold graphStep
  rw [nodes_policyEdge, nodes_authorEdge]
  exact (nodes_prefix_addNodeIfNew st r.title NodeCat.bill).trans
    ((nodes_prefix_addNodeIfTruthy _ r.author NodeCat.author).trans
      (nodes_prefix_addNodeIfTruthy _ r.policyArea NodeCat.policy))

lemma nodes_prefix_fold (rs : List Record) (st : GraphState) :
    st.net.nodes <+: (rs.foldl graphStep st).net.nodes := by
  induction rs generalizing st with
  | nil => exact List.prefix_refl _
  | cons r rs ih =>
    exact (nodes_prefix_graphStep st r).trans (ih (graphStep st r))

/-- C2: relationship-graph edge insertion is idempotent — for every
record sequence the built edge list holds each ordered (source, target)
pair at most once, and two records sharing the same author and title
leave exactly one (author, title) edge. -/
theorem c2_edge_insertion_idempotent :
    (∀ rs : List Record, (create_network_graph rs).edges.Nodup) ∧
    (create_network_graph
        [⟨some "A", some 0, some "X", some "M", "T", none⟩,
         ⟨some "A", some 1, some "Y", some "M", "T", none⟩]).edges.count
      ("A", "T") = 1 := by
  constructor
  · intro rs
    exact edges_nodup_fold rs _ List.nodup_nil
  · decide

/-- C7 counterexample: the label "Z" first occurs as a bill title and
later as another record's author, yet the built node keeps the bill
category — the later category does not overwrite it. -/
theorem c7_counterexample :
    ("Z", NodeCat.author) ∉
        (create_network_graph
          [⟨some "A", some 0, some "X", none, "Z", none⟩,
           ⟨some "Z", some 1, some "X", none, "W", none⟩]).nodes ∧
    ("Z", NodeCat.bill) ∈
        (create_network_graph
          [⟨some "A", some 0, some "X", none, "Z", none⟩,
           ⟨some "Z", some 1, some "X", none, "W", none⟩]).nodes := by
  decide

/-- C7 (amended): when the same label occurs in more than one category,
the category encountered first silently wins — no label ever gets a
second node, and records processed later never alter the nodes already
built (they can only append new ones). -/
theorem c7_first_category_wins :
    ∀ rs extra : List Record,
      ((create_network_graph rs).nodes.map Prod.fst).Nodup ∧
      (create_network_graph rs).nodes <+:
        (create_network_graph (rs ++ extra)).nodes := by
  intro rs extra
  constructor
  · have hinv := inv_fold rs ⟨⟨[], []⟩, []⟩ rfl
    rw [create_network_graph, ← hinv]
    exact nodup_added_fold rs _ List.nodup_nil
  · rw [create_network_graph, create_network_graph, List.foldl_append]
    exact nodes_prefix_fold extra _

/-- C5 counterexample: a record whose author string equals its own title
("Z") yields 2 nodes, not the claimed M+A+P = 3 — cross-category label
collisions are counted once. -/
theorem c5_counterexample :
    ¬ ((create_network_graph
          [⟨some "Z", some 0, some "P", none, "Z", none⟩]).nodes.length =
        (distinctTitles [⟨some "Z", some 0, some "P", none, "Z", none⟩]).length +
        (distinctAuthors [⟨some "Z", some 0, some "P", none, "Z", none⟩]).length +
        (distinctPolicies [⟨some "Z", some 0, some "P", none, "Z", none⟩]).length) := by
  decide

lemma truthy_filter_eq (v : Option String) (l : String) :
    ((if truthy v then v else none) = some l) ↔ v = some l ∧ l ≠ "" := by
  constructor
  · intro h
    have hv : truthy v = true := by
      by_contra hf
      rw [Bool.not_eq_true] at hf
      rw [hf] at h
      simp at h
    rw [hv] at h
    simp only [if_pos] at h
    refine ⟨h, fun hl => ?_⟩
    subst hl
    rw [h] at hv
    simp [truthy] at hv
  · rintro ⟨hv, hl⟩
    subst hv
    simp [truthy, hl]

lemma mem_truthy_singleton (v : Option String) (l : String) :
    (l ∈ (match v with
          | none => ([] : List String)
          | some s => if s = "" then [] else [s])) ↔
      v = some l ∧ l ≠ "" := by
  cases v with
  | none => simp
  | some s =>
    dsimp only
    by_cases hs : s = ""
    · subst hs
      rw [if_pos rfl]
      simp only [List.not_mem_nil, false_iff, not_and, Option.some_inj]
      intro h1 h2
      exact h2 h1.symm
    · rw [if_neg hs, List.mem_singleton, Option.some_inj]
      constructor
      · intro h
        subst h
        exact ⟨rfl, hs⟩
      · rintro ⟨h1, _⟩
        exact h1.symm

lemma mem_labelsOf (r : Record) (l : String) :
    l ∈ labelsOf r ↔
      l = r.title ∨ (r.author = some l ∧ l ≠ "") ∨
        (r.policyArea = some l ∧ l ≠ "") := by
  unfold labelsOf
  rw [List.mem_cons, List.mem_append, mem_truthy_singleton,
    mem_truthy_singleton]

lemma added_toFinset (rs : List Record) :
    ((rs.foldl graphStep ⟨⟨[], []⟩, []⟩).added).toFinset =
      ((rs.map fun r => r.title).toFinset ∪
        (rs.filterMap fun r =>
          if truthy r.author then r.author else none).toFinset) ∪
      (rs.filterMap fun r =>
        if truthy r.policyArea then r.policyArea else none).toFinset := by
  ext l
  rw [List.mem_toFinset, mem_added_fold]
  simp only [List.not_mem_nil, false_or, Finset.mem_union,
    List.mem_toFinset, List.mem_map, List.mem_filterMap, mem_labelsOf,
    truthy_filter_eq]
  constructor
  · rintro ⟨r, hr, (h | h | h)⟩
    · exact Or.inl (Or.inl ⟨r, hr, h.symm⟩)
    · exact Or.inl (Or.inr ⟨r, hr, h⟩)
    · exact Or.inr ⟨r, hr, h⟩
  · rintro ((⟨r, hr, h⟩ | ⟨r, hr, h⟩) | ⟨r, hr, h⟩)
    · exact ⟨r, hr, Or.inl h.symm⟩
    · exact ⟨r, hr, Or.inr (Or.inl h)⟩
    · exact ⟨r, hr, Or.inr (Or.inr h)⟩

lemma dedup_length_card (l : List String) :
    l.dedup.length = l.toFinset.card := by
  have h : l.dedup.toFinset = l.toFinset := by
    ext x
    simp [List.mem_dedup]
  rw [← h, List.toFinset_card_of_nodup (List.nodup_dedup l)]

lemma disjoint_of_dedup_disjoint {l m : List String}
    (h : ∀ x, x ∈ l.dedup → x ∉ m.dedup) :
    Disjoint l.toFinset m.toFinset := by
  rw [List.disjoint_toFinset_iff_disjoint]
  intro x hx hm
  exact h x (List.mem_dedup.mpr hx) (List.mem_dedup.mpr hm)

/-- C5 (amended): provided every record's author and policy-area cells
are present (Python's `bool(nan)` is True, so an absent cell would walk
into pyvis's string-typed node API instead of being skipped or counted)
and no label occurs in two different categories (titles, present authors
and present policy areas pairwise disjoint — the collision the spec
documents as an open question), the Relationship Graph has exactly
M + A + P nodes, and no label is ever added twice. -/
theorem c5_node_count (rs : List Record)
    (_hpa : ∀ r ∈ rs, r.author ≠ none)
    (_hpp : ∀ r ∈ rs, r.policyArea ≠ none)
    (hTA : ∀ x, x ∈ distinctTitles rs → x ∉ distinctAuthors rs)
    (hTP : ∀ x, x ∈ distinctTitles rs → x ∉ distinctPolicies rs)
    (hAP : ∀ x, x ∈ distinctAuthors rs → x ∉ distinctPolicies rs) :
    (create_network_graph rs).nodes.length =
      (distinctTitles rs).length + (distinctAuthors rs).length +
        (distinctPolicies rs).length := by
  have hinv := inv_fold rs ⟨⟨[], []⟩, []⟩ rfl
  have hnd := nodup_added_fold rs ⟨⟨[], []⟩, []⟩ List.nodup_nil
  have hTA' := disjoint_of_dedup_disjoint hTA
  have hTP' := disjoint_of_dedup_disjoint hTP
  have hAP' := disjoint_of_dedup_disjoint hAP
  calc (create_network_graph rs).nodes.length
      = ((create_network_graph rs).nodes.map Prod.fst).length := by
        rw [List.length_map]
    _ = (rs.foldl graphStep ⟨⟨[], []⟩, []⟩).added.length := by
        rw [create_network_graph, ← hinv]
    _ = (rs.foldl graphStep ⟨⟨[], []⟩, []⟩).added.toFinset.card := by
        rw [List.toFinset_card_of_nodup hnd]
    _ = (((rs.map fun r => r.title).toFinset ∪
          (rs.filterMap fun r =>
            if truthy r.author then r.author else none).toFinset) ∪
         (rs.filterMap fun r =>
            if truthy r.policyArea then r.policyArea else none).toFinset).card := by
        rw [added_toFinset]
    _ = (distinctTitles rs).length + (distinctAuthors rs).length +
          (distinctPolicies rs).length := by
        rw [Finset.card_union_of_disjoint
            (Finset.disjoint_union_left.mpr ⟨hTP', hAP'⟩),
          Finset.card_union_of_disjoint hTA',
          distinctTitles, distinctAuthors, distinctPolicies,
          dedup_length_card, dedup_length_card, dedup_length_card]

/-- Closed witness for C5 (amended) at a collision-free input with all
cells present: one record with distinct title, author and policy labels
gives 3 = 1 + 1 + 1 nodes. -/
theorem c5_node_count_witness :
    (create_network_graph
        [⟨some "A", some 0, some "X", some "M", "T", none⟩]).nodes.length =
      (distinctTitles [⟨some "A", some 0, some "X", some "M", "T", none⟩]).length +
      (distinctAuthors [⟨some "A", some 0, some "X", some "M", "T", none⟩]).length +
      (distinctPolicies [⟨some "A", some 0, some "X", some "M", "T", none⟩]).length :=
  c5_node_count [⟨some "A", some 0, some "X", some "M", "T", none⟩]
    (by decide) (by decide) (by decide) (by decide) (by decide)

/-! ### Flow-diagram lemmas -/

lemma lexLe_cons_iff (c d : Char) (cs ds : List Char) :
    lexLe (c :: cs) (d :: ds) = true ↔
      c.toNat < d.toNat ∨ (c.toNat = d.toNat ∧ lexLe cs ds = true) := by
  simp only [lexLe]
  rcases Nat.lt_trichotomy c.toNat d.toNat with h | h | h
  · simp [h]
  · have h1 : ¬ c.toNat < d.toNat := by omega
    have h2 : ¬ d.toNat < c.toNat := by omega
    simp [h1, h2, h]
  · have h1 : ¬ c.toNat < d.toNat := by omega
    have h2 : c.toNat ≠ d.toNat := by omega
    simp [h1, h, h2]

lemma lexLe_total : ∀ l m : List Char, lexLe l m = true ∨ lexLe m l = true := by
  intro l
  induction l with
  | nil => intro m; exact Or.inl rfl
  | cons c cs ih =>
    intro m
    cases m with
    | nil => exact Or.inr rfl
    | cons d ds =>
      rw [lexLe_cons_iff, lexLe_cons_iff]
      rcases Nat.lt_trichotomy c.toNat d.toNat with h | h | h
      · exact Or.inl (Or.inl h)
      · rcases ih ds with h3 | h3
        · exact Or.inl (Or.inr ⟨h, h3⟩)
        · exact Or.inr (Or.inr ⟨h.symm, h3⟩)
      · exact Or.inr (Or.inl h)

lemma lexLe_trans : ∀ l m n : List Char, lexLe l m = true →
    lexLe m n = true → lexLe l n = true := by
  intro l
  induction l with
  | nil => intro m n _ _; rfl
  | cons c cs ih =>
    intro m n h1 h2
    cases m with
    | nil => simp [lexLe] at h1
    | cons d ds =>
      cases n with
      | nil => simp [lexLe] at h2
      | cons e es =>
        rw [lexLe_cons_iff] at h1 h2 ⊢
        rcases h1 with h1 | ⟨h1, h1'⟩
        · rcases h2 with h2 | ⟨h2, _⟩
          · exact Or.inl (by omega)
          · exact Or.inl (by omega)
        · rcases h2 with h2 | ⟨h2, h2'⟩
          · exact Or.inl (by omega)
          · exact Or.inr ⟨by omega, ih ds es h1' h2'⟩

instance : IsTotal String fun a b => strLe a b = true :=
  ⟨fun a b => lexLe_total a.data b.data⟩

instance : IsTrans String fun a b => strLe a b = true :=
  ⟨fun a b c => lexLe_trans a.data b.data c.data⟩

lemma sorted_sortedUnique (l : List String) :
    (sortedUnique l).Sorted fun a b => strLe a b = true :=
  List.sorted_insertionSort _ _

lemma nodup_sortedUnique (l : List String) : (sortedUnique l).Nodup :=
  ((List.perm_insertionSort _ _).nodup_iff).mpr (List.nodup_dedup l)

lemma mem_sortedUnique (l : List String) (a : String) :
    a ∈ sortedUnique l ↔ a ∈ l := by
  unfold sortedUnique
  rw [List.Perm.mem_iff (List.perm_insertionSort _ _), List.mem_dedup]

lemma mem_sankeyAuthors (rs : List Record) (a : String) :
    a ∈ sankeyAuthors rs ↔ ∃ r ∈ rs, r.author = some a := by
  rw [sankeyAuthors, mem_sortedUnique, List.mem_filterMap]

lemma mem_sankeyPolicies (rs : List Record) (p : String) :
    p ∈ sankeyPolicies rs ↔ ∃ r ∈ rs, r.policyArea = some p := by
  rw [sankeyPolicies, mem_sortedUnique, List.mem_filterMap]

lemma mem_sankeyMethods (rs : List Record) (m : String) :
    m ∈ sankeyMethods rs ↔ ∃ r ∈ rs, r.enactmentMethod = some m := by
  rw [sankeyMethods, mem_sortedUnique, List.mem_filterMap]

lemma linkWeight_append (l₁ l₂ : List (Nat × Nat × Nat)) (s t : Nat) :
    linkWeight (l₁ ++ l₂) s t = linkWeight l₁ s t + linkWeight l₂ s t := by
  simp [linkWeight, List.filter_append]

lemma linkWeight_cons (l : Nat × Nat × Nat) (ls : List (Nat × Nat × Nat))
    (s t : Nat) :
    linkWeight (l :: ls) s t =
      (if l.1 = s ∧ l.2.1 = t then l.2.2 else 0) + linkWeight ls s t := by
  simp only [linkWeight, List.filter_cons]
  by_cases h1 : l.1 = s <;> by_cases h2 : l.2.1 = t <;> simp [h1, h2]

lemma linkWeight_eq_zero (links : List (Nat × Nat × Nat)) (s t : Nat)
    (h : ∀ l ∈ links, ¬ l.1 = s) : linkWeight links s t = 0 := by
  rw [linkWeight, List.filter_eq_nil_iff.mpr fun l hl => by simp [h l hl]]
  rfl

lemma policyIdx_inj (rs : List Record) (p p' : String)
    (hp : p ∈ sankeyPolicies rs) (hp' : p' ∈ sankeyPolicies rs) :
    policyIdx rs p' = policyIdx rs p ↔ p' = p := by
  rw [policyIdx, policyIdx, add_right_inj]
  exact List.indexOf_inj hp' hp

lemma pass1_weight (rs : List Record) (a p : String)
    (ha : a ∈ sankeyAuthors rs) (hp : p ∈ sankeyPolicies rs) :
    ∀ rs' : List Record, (∀ r, r ∈ rs' → r ∈ rs) →
      linkWeight (rs'.filterMap fun r =>
          match r.author, r.policyArea with
          | some a', some p' => some (authorIdx rs a', policyIdx rs p', 1)
          | _, _ => none)
        (authorIdx rs a) (policyIdx rs p) =
      (rs'.filter fun r =>
        decide (r.author = some a) && decide (r.policyArea = some p)).length := by
  intro rs'
  induction rs' with
  | nil => intro _; rfl
  | cons r rest ih =>
    intro hsub
    have hr : r ∈ rs := hsub r (List.mem_cons_self r rest)
    have hrest : ∀ x, x ∈ rest → x ∈ rs := fun x hx =>
      hsub x (List.mem_cons_of_mem r hx)
    rw [List.filterMap_cons, List.filter_cons]
    cases hA : r.author with
    | none => simp [ih hrest]
    | some a' =>
      cases hP : r.policyArea with
      | none => simp [ih hrest]
      | some p' =>
        dsimp only
        rw [linkWeight_cons]
        have ha' : a' ∈ sankeyAuthors rs :=
          (mem_sankeyAuthors rs a').mpr ⟨r, hr, hA⟩
        have hp' : p' ∈ sankeyPolicies rs :=
          (mem_sankeyPolicies rs p').mpr ⟨r, hr, hP⟩
        by_cases haa : a' = a
        · by_cases hpp : p' = p
          · subst haa
            subst hpp
            simp [ih hrest]
            omega
          · have hne : ¬ policyIdx rs p' = policyIdx rs p := fun h =>
              hpp ((policyIdx_inj rs p p' hp hp').mp h)
            simp [hne, hpp, ih hrest]
        · have hne : ¬ authorIdx rs a' = authorIdx rs a := fun h =>
            haa ((List.indexOf_inj ha' ha).mp h)
          simp [hne, haa, ih hrest]

lemma methodIdx_inj (rs : List Record) (m m' : String)
    (hm : m ∈ sankeyMethods rs) (hm' : m' ∈ sankeyMethods rs) :
    methodIdx rs m' = methodIdx rs m ↔ m' = m := by
  rw [methodIdx, methodIdx, add_right_inj]
  exact List.indexOf_inj hm' hm

lemma pass2_weight (rs : List Record) (p m : String)
    (hp : p ∈ sankeyPolicies rs) (hm : m ∈ sankeyMethods rs) :
    ∀ rs' : List Record, (∀ r, r ∈ rs' → r ∈ rs) →
      linkWeight (rs'.filterMap fun r =>
          match r.policyArea, r.enactmentMethod with
          | some p', some m' => some (policyIdx rs p', methodIdx rs m', 1)
          | _, _ => none)
        (policyIdx rs p) (methodIdx rs m) =
      (rs'.filter fun r =>
        decide (r.policyArea = some p) &&
          decide (r.enactmentMethod = some m)).length := by
  intro rs'
  induction rs' with
  | nil => intro _; rfl
  | cons r rest ih =>
    intro hsub
    have hr : r ∈ rs := hsub r (List.mem_cons_self r rest)
    have hrest : ∀ x, x ∈ rest → x ∈ rs := fun x hx =>
      hsub x (List.mem_cons_of_mem r hx)
    rw [List.filterMap_cons, List.filter_cons]
    cases hP : r.policyArea with
    | none => simp [ih hrest]
    | some p' =>
      cases hM : r.enactmentMethod with
      | none => simp [ih hrest]
      | some m' =>
        dsimp only
        rw [linkWeight_cons]
        have hp' : p' ∈ sankeyPolicies rs :=
          (mem_sankeyPolicies rs p').mpr ⟨r, hr, hP⟩
        have hm' : m' ∈ sankeyMethods rs :=
          (mem_sankeyMethods rs m').mpr ⟨r, hr, hM⟩
        by_cases hpp : p' = p
        · by_cases hmm : m' = m
          · subst hpp
            subst hmm
            simp [ih hrest]
            omega
          · have hne : ¬ methodIdx rs m' = methodIdx rs m := fun h =>
              hmm ((methodIdx_inj rs m m' hm hm').mp h)
            simp [hne, hmm, ih hrest]
        · have hne : ¬ policyIdx rs p' = policyIdx rs p := fun h =>
            hpp ((policyIdx_inj rs p p' hp hp').mp h)
          simp [hne, hpp, ih hrest]

lemma mem_pass2_src (rs : List Record) (l : Nat × Nat × Nat)
    (h : l ∈ sankeyPass2 rs) : (sankeyAuthors rs).length ≤ l.1 := by
  rw [sankeyPass2, List.mem_filterMap] at h
  obtain ⟨r, _, hF⟩ := h
  cases hP : r.policyArea with
  | none => rw [hP] at hF; simp at hF
  | some p' =>
    cases hM : r.enactmentMethod with
    | none => rw [hP, hM] at hF; simp at hF
    | some m' =>
      rw [hP, hM] at hF
      simp only [Option.some_inj] at hF
      rw [← hF]
      exact Nat.le_add_right _ _

lemma pass2_weight_zero (rs : List Record) (a : String)
    (ha : a ∈ sankeyAuthors rs) (t : Nat) :
    linkWeight (sankeyPass2 rs) (authorIdx rs a) t = 0 := by
  apply linkWeight_eq_zero
  intro l hl h
  have h1 := mem_pass2_src rs l hl
  have h2 : authorIdx rs a < (sankeyAuthors rs).length :=
    List.indexOf_lt_length.mpr ha
  omega

lemma mem_pass1_src (rs : List Record) (l : Nat × Nat × Nat)
    (h : l ∈ sankeyPass1 rs) : l.1 < (sankeyAuthors rs).length := by
  rw [sankeyPass1, List.mem_filterMap] at h
  obtain ⟨r, hr, hF⟩ := h
  cases hA : r.author with
  | none => rw [hA] at hF; simp at hF
  | some a' =>
    cases hP : r.policyArea with
    | none => rw [hA, hP] at hF; simp at hF
    | some p' =>
      rw [hA, hP] at hF
      simp only [Option.some_inj] at hF
      rw [← hF]
      exact List.indexOf_lt_length.mpr
        ((mem_sankeyAuthors rs a').mpr ⟨r, hr, hA⟩)

lemma pass1_weight_zero (rs : List Record) (p : String) (t : Nat) :
    linkWeight (sankeyPass1 rs) (policyIdx rs p) t = 0 := by
  apply linkWeight_eq_zero
  intro l hl h
  have h1 := mem_pass1_src rs l hl
  rw [policyIdx] at h
  omega

/-- C3: in the Flow Diagram, the total weight carried by a given
(source label, target label) pair — author→policy from the first pass and
policy→method from the second — equals the number of records producing
that pair; in particular two records with identical author "A" and policy
"X" yield total weight 2 for A→X, while the Relationship Graph keeps a
single idempotent edge on the same input. -/
theorem c3_flow_weight_accumulates :
    (∀ (rs : List Record) (a p : String),
        a ∈ sankeyAuthors rs → p ∈ sankeyPolicies rs →
        linkWeight (sankeyLinks rs) (authorIdx rs a) (policyIdx rs p) =
          (rs.filter fun r =>
            decide (r.author = some a) &&
              decide (r.policyArea = some p)).length) ∧
    (∀ (rs : List Record) (p m : String),
        p ∈ sankeyPolicies rs → m ∈ sankeyMethods rs →
        linkWeight (sankeyLinks rs) (policyIdx rs p) (methodIdx rs m) =
          (rs.filter fun r =>
            decide (r.policyArea = some p) &&
              decide (r.enactmentMethod = some m)).length) ∧
    (linkWeight
        (sankeyLinks
          [⟨some "A", some 0, some "X", some "M", "T", none⟩,
           ⟨some "A", some 1, some "X", some "N", "T", none⟩])
        (authorIdx
          [⟨some "A", some 0, some "X", some "M", "T", none⟩,
           ⟨some "A", some 1, some "X", some "N", "T", none⟩] "A")
        (policyIdx
          [⟨some "A", some 0, some "X", some "M", "T", none⟩,
           ⟨some "A", some 1, some "X", some "N", "T", none⟩] "X") = 2 ∧
      (create_network_graph
          [⟨some "A", some 0, some "X", some "M", "T", none⟩,
           ⟨some "A", some 1, some "X", some "N", "T", none⟩]).edges.count
        ("A", "T") = 1) := by
  refine ⟨fun rs a p ha hp => ?_, fun rs p m hp hm => ?_,
    by decide, by decide⟩
  · rw [sankeyLinks, linkWeight_append, pass2_weight_zero rs a ha,
      sankeyPass1, pass1_weight rs a p ha hp rs fun _ h => h]
    omega
  · rw [sankeyLinks, linkWeight_append, pass1_weight_zero rs p _,
      sankeyPass2, pass2_weight rs p m hp hm rs fun _ h => h]
    omega

/-- Closed witness for C3: both general weight statements applied to the
concrete two-record input, for the A→X author→policy pair and for the
X→M policy→method pair. -/
theorem c3_flow_weight_accumulates_witness :
    (linkWeight
        (sankeyLinks
          [⟨some "A", some 0, some "X", some "M", "T", none⟩,
           ⟨some "A", some 1, some "X", some "N", "T", none⟩])
        (authorIdx
          [⟨some "A", some 0, some "X", some "M", "T", none⟩,
           ⟨some "A", some 1, some "X", some "N", "T", none⟩] "A")
        (policyIdx
          [⟨some "A", some 0, some "X", some "M", "T", none⟩,
           ⟨some "A", some 1, some "X", some "N", "T", none⟩] "X") =
      ([⟨some "A", some 0, some "X", some "M", "T", none⟩,
        ⟨some "A", some 1, some "X", some "N", "T", none⟩].filter
          fun r : Record =>
            decide (r.author = some "A") &&
              decide (r.policyArea = some "X")).length) ∧
    (linkWeight
        (sankeyLinks
          [⟨some "A", some 0, some "X", some "M", "T", none⟩,
           ⟨some "A", some 1, some "X", some "N", "T", none⟩])
        (policyIdx
          [⟨some "A", some 0, some "X", some "M", "T", none⟩,
           ⟨some "A", some 1, some "X", some "N", "T", none⟩] "X")
        (methodIdx
          [⟨some "A", some 0, some "X", some "M", "T", none⟩,
           ⟨some "A", some 1, some "X", some "N", "T", none⟩] "M") =
      ([⟨some "A", some 0, some "X", some "M", "T", none⟩,
        ⟨some "A", some 1, some "X", some "N", "T", none⟩].filter
          fun r : Record =>
            decide (r.policyArea = some "X") &&
              decide (r.enactmentMethod = some "M")).length) :=
  ⟨c3_flow_weight_accumulates.1 _ "A" "X" (by decide) (by decide),
   c3_flow_weight_accumulates.2.1 _ "X" "M" (by decide) (by decide)⟩

lemma labels_get_author (rs : List Record) (a : String)
    (ha : a ∈ sankeyAuthors rs) :
    (sankeyLabels rs)[authorIdx rs a]? = some a := by
  rw [authorIdx, sankeyLabels, List.getElem?_append,
    if_pos (List.indexOf_lt_length.mpr ha)]
  exact List.getElem?_indexOf ha

lemma labels_get_policy (rs : List Record) (p : String)
    (hp : p ∈ sankeyPolicies rs) :
    (sankeyLabels rs)[policyIdx rs p]? = some p := by
  rw [policyIdx, sankeyLabels, List.getElem?_append, if_neg (by omega),
    Nat.add_sub_cancel_left, List.getElem?_append,
    if_pos (List.indexOf_lt_length.mpr hp)]
  exact List.getElem?_indexOf hp

lemma labels_get_method (rs : List Record) (m : String)
    (hm : m ∈ sankeyMethods rs) :
    (sankeyLabels rs)[methodIdx rs m]? = some m := by
  rw [methodIdx, sankeyLabels, List.getElem?_append, if_neg (by omega)]
  have h1 : (sankeyAuthors rs).length + (sankeyPolicies rs).length +
        List.indexOf m (sankeyMethods rs) - (sankeyAuthors rs).length =
      (sankeyPolicies rs).length + List.indexOf m (sankeyMethods rs) := by
    omega
  rw [h1, List.getElem?_append, if_neg (by omega),
    Nat.add_sub_cancel_left]
  exact List.getElem?_indexOf hm

lemma mem_pass1_shape (rs : List Record) (l : Nat × Nat × Nat)
    (h : l ∈ sankeyPass1 rs) :
    ∃ r ∈ rs, ∃ a p, r.author = some a ∧ r.policyArea = some p ∧
      l = (authorIdx rs a, policyIdx rs p, 1) := by
  rw [sankeyPass1, List.mem_filterMap] at h
  obtain ⟨r, hr, hF⟩ := h
  cases hA : r.author with
  | none => rw [hA] at hF; simp at hF
  | some a' =>
    cases hP : r.policyArea with
    | none => rw [hA, hP] at hF; simp at hF
    | some p' =>
      rw [hA, hP] at hF
      simp only [Option.some_inj] at hF
      exact ⟨r, hr, a', p', hA, hP, hF.symm⟩

lemma mem_pass2_shape (rs : List Record) (l : Nat × Nat × Nat)
    (h : l ∈ sankeyPass2 rs) :
    ∃ r ∈ rs, ∃ p m, r.policyArea = some p ∧ r.enactmentMethod = some m ∧
      l = (policyIdx rs p, methodIdx rs m, 1) := by
  rw [sankeyPass2, List.mem_filterMap] at h
  obtain ⟨r, hr, hF⟩ := h
  cases hP : r.policyArea with
  | none => rw [hP] at hF; simp at hF
  | some p' =>
    cases hM : r.enactmentMethod with
    | none => rw [hP, hM] at hF; simp at hF
    | some m' =>
      rw [hP, hM] at hF
      simp only [Option.some_inj] at hF
      exact ⟨r, hr, p', m', hP, hM, hF.symm⟩

/-- C6: the Flow Diagram's three layers are the sorted deduplicated
non-null authors, policy areas and enactment methods; index assignment is
positional — authors in [0, |L1|), policies in [|L1|, |L1|+|L2|), methods
after that, each index resolving to its own label in the concatenated
label list — and every emitted link uses exactly these indices. -/
theorem c6_flow_layers_and_indices :
    ∀ rs : List Record,
      ((sankeyAuthors rs).Sorted (fun a b => strLe a b = true) ∧
        (sankeyAuthors rs).Nodup ∧
        ∀ a, a ∈ sankeyAuthors rs ↔ ∃ r ∈ rs, r.author = some a) ∧
      ((sankeyPolicies rs).Sorted (fun a b => strLe a b = true) ∧
        (sankeyPolicies rs).Nodup ∧
        ∀ p, p ∈ sankeyPolicies rs ↔ ∃ r ∈ rs, r.policyArea = some p) ∧
      ((sankeyMethods rs).Sorted (fun a b => strLe a b = true) ∧
        (sankeyMethods rs).Nodup ∧
        ∀ m, m ∈ sankeyMethods rs ↔ ∃ r ∈ rs, r.enactmentMethod = some m) ∧
      (∀ a ∈ sankeyAuthors rs,
        authorIdx rs a < (sankeyAuthors rs).length ∧
        (sankeyLabels rs)[authorIdx rs a]? = some a) ∧
      (∀ p ∈ sankeyPolicies rs,
        (sankeyAuthors rs).length ≤ policyIdx rs p ∧
        policyIdx rs p <
          (sankeyAuthors rs).length + (sankeyPolicies rs).length ∧
        (sankeyLabels rs)[policyIdx rs p]? = some p) ∧
      (∀ m ∈ sankeyMethods rs,
        (sankeyAuthors rs).length + (sankeyPolicies rs).length ≤
          methodIdx rs m ∧
        methodIdx rs m < (sankeyLabels rs).length ∧
        (sankeyLabels rs)[methodIdx rs m]? = some m) ∧
      (∀ l ∈ sankeyLinks rs,
        (∃ r ∈ rs, ∃ a p, r.author = some a ∧ r.policyArea = some p ∧
          l = (authorIdx rs a, policyIdx rs p, 1)) ∨
        (∃ r ∈ rs, ∃ p m, r.policyArea = some p ∧
          r.enactmentMethod = some m ∧
          l = (policyIdx rs p, methodIdx rs m, 1))) := by
  intro rs
  refine ⟨⟨sorted_sortedUnique _, nodup_sortedUnique _,
      mem_sankeyAuthors rs⟩,
    ⟨sorted_sortedUnique _, nodup_sortedUnique _, mem_sankeyPolicies rs⟩,
    ⟨sorted_sortedUnique _, nodup_sortedUnique _, mem_sankeyMethods rs⟩,
    fun a ha => ⟨List.indexOf_lt_length.mpr ha, labels_get_author rs a ha⟩,
    fun p hp => ⟨?_, ?_, labels_get_policy rs p hp⟩,
    fun m hm => ⟨?_, ?_, labels_get_method rs m hm⟩,
    fun l hl => ?_⟩
  · rw [policyIdx]
    omega
  · have := List.indexOf_lt_length.mpr hp
    rw [policyIdx]
    omega
  · rw [methodIdx]
    omega
  · have := List.indexOf_lt_length.mpr hm
    rw [methodIdx, sankeyLabels]
    simp only [List.length_append]
    omega
  · rw [sankeyLinks, List.mem_append] at hl
    rcases hl with hl | hl
    · exact Or.inl (mem_pass1_shape rs l hl)
    · exact Or.inr (mem_pass2_shape rs l hl)

/-- Closed witness for C6: the policy-layer index clause evaluated on a
concrete one-record input — "X" sits at index 1 = |Layer1| and resolves
to itself in the label list. -/
theorem c6_flow_layers_and_indices_witness :
    (sankeyAuthors [⟨some "A", some 0, some "X", some "M", "T", none⟩]).length ≤
      policyIdx [⟨some "A", some 0, some "X", some "M", "T", none⟩] "X" ∧
    policyIdx [⟨some "A", some 0, some "X", some "M", "T", none⟩] "X" <
      (sankeyAuthors [⟨some "A", some 0, some "X", some "M", "T", none⟩]).length +
      (sankeyPolicies [⟨some "A", some 0, some "X", some "M", "T", none⟩]).length ∧
    (sankeyLabels [⟨some "A", some 0, some "X", some "M", "T", none⟩])[
      policyIdx [⟨some "A", some 0, some "X", some "M", "T", none⟩] "X"]? =
      some "X" :=
  (c6_flow_layers_and_indices
    [⟨some "A", some 0, some "X", some "M", "T", none⟩]).2.2.2.2.1 "X"
    (by decide)

/-- C8: on an empty record sequence the timeline view fails with the
`NoValidDates` condition instead of returning intervals; on a non-empty
sequence every record yields its own interval with start = date, end =
date + 1 day, label = title, group = author. -/
theorem c8_timeline_empty_fails :
    ∀ rs : List Record,
      (rs = [] → timelineView rs = Except.error ViewError.NoValidDates) ∧
      (rs ≠ [] → timelineView rs =
        Except.ok (rs.map fun r =>
          (⟨r.date, r.date.map (fun d => d + 1), r.title, r.author⟩ :
            Interval))) := by
  intro rs
  constructor
  · rintro rfl
    rfl
  · intro h
    rw [timelineView, if_neg (by simpa [List.isEmpty_iff] using h)]
    rfl

/-- Closed witness for C8: the empty input errors with `NoValidDates`; a
one-record input yields exactly its own one-day interval. -/
theorem c8_timeline_empty_fails_witness :
    timelineView [] = Except.error ViewError.NoValidDates ∧
    timelineView [⟨some "A", some 3, some "X", some "M", "T", none⟩] =
      Except.ok [⟨some 3, some 4, "T", some "A"⟩] := by
  constructor
  · exact (c8_timeline_empty_fails []).1 rfl
  · rw [(c8_timeline_empty_fails
      [⟨some "A", some 3, some "X", some "M", "T", none⟩]).2 (by decide)]
    rfl

/-- C9: the scatter view surfaces `InvalidFieldSelection` whenever any of
the chosen x/y/colour fields is outside the four allowed column names,
and for allowed fields returns exactly one point per record, with no
aggregation or deduplication. -/
theorem c9_scatter_field_restriction :
    ∀ (rs : List Record) (x y c : String),
      (¬ (x ∈ axis_options ∧ y ∈ axis_options ∧ c ∈ axis_options) →
        scatterView rs x y c =
          Except.error ViewError.InvalidFieldSelection) ∧
      (x ∈ axis_options → y ∈ axis_options → c ∈ axis_options →
        scatterView rs x y c =
          Except.ok (generate_scatter_plot rs x y c) ∧
        (generate_scatter_plot rs x y c).length = rs.length) := by
  intro rs x y c
  constructor
  · intro h
    rw [scatterView, if_neg]
    intro hb
    simp only [Bool.and_eq_true, List.contains_iff_exists_mem_beq] at hb
    exact h ⟨by obtain ⟨⟨⟨a, ha, he⟩, _⟩, _⟩ := hb; exact (beq_iff_eq.mp he) ▸ ha,
      by obtain ⟨⟨_, ⟨a, ha, he⟩⟩, _⟩ := hb; exact (beq_iff_eq.mp he) ▸ ha,
      by obtain ⟨_, ⟨a, ha, he⟩⟩ := hb; exact (beq_iff_eq.mp he) ▸ ha⟩
  · intro hx hy hc
    refine ⟨?_, by rw [generate_scatter_plot, List.length_map]⟩
    rw [scatterView, if_pos]
    simp only [Bool.and_eq_true, List.contains_iff_exists_mem_beq]
    exact ⟨⟨⟨x, hx, by simp⟩, ⟨y, hy, by simp⟩⟩, ⟨c, hc, by simp⟩⟩

/-- Closed witness for C9: the field "Title" is rejected, while the
selection (Policy Area, Date, Author) yields one point for the single
input record. -/
theorem c9_scatter_field_restriction_witness :
    scatterView [⟨some "A", some 3, some "X", some "M", "T", none⟩]
        "Title" "Date" "Author" =
      Except.error ViewError.InvalidFieldSelection ∧
    scatterView [⟨some "A", some 3, some "X", some "M", "T", none⟩]
        "Policy Area" "Date" "Author" =
      Except.ok (generate_scatter_plot
        [⟨some "A", some 3, some "X", some "M", "T", none⟩]
        "Policy Area" "Date" "Author") ∧
    (generate_scatter_plot
        [⟨some "A", some 3, some "X", some "M", "T", none⟩]
        "Policy Area" "Date" "Author").length = 1 := by
  refine ⟨(c9_scatter_field_restriction _ "Title" "Date" "Author").1
      (by decide), ?_⟩
  have h := (c9_scatter_field_restriction
    [⟨some "A", some 3, some "X", some "M", "T", none⟩]
    "Policy Area" "Date" "Author").2 (by decide) (by decide) (by decide)
  exact ⟨h.1, h.2⟩

end VCBills
